import Mathlib

/-!
# Verification of the orbit package manager core

A shallow embedding, in Lean 4, of the parts of the `orbit` repository that
its specification talks about: the lockfile engine (`src/core/lockfile.rs`),
the installation cache (`src/commands/install.rs`) and the build planner
(`src/commands/plan.rs`).

Rust machine values are modelled with `Nat`/`String`, fallible code with
`Option`/`Except`, and the external structured-document (TOML) facility with
an explicit document tree `Toml`.  Code of the repository that lives in
modules not present in the source snapshot (the semver type, the graph
utility, the fileset glob helpers, the digest primitive) is modelled from the
specification; each such definition carries a doc comment saying so.
-/

namespace Orbit

/-! ## Decimal numerals

The lockfile stores semver components in decimal inside strings such as
`"0.5.19"`.  We model the decimal printer and parser directly (fuel-based so
that every definition is kernel-computable) and prove the round trip.
-/

/-- The character for a single decimal digit `d < 10`. -/
def digitChar (d : Nat) : Char := Char.ofNat (48 + d)

/-- Decimal digits of `n`, most significant first; `fuel` bounds recursion. -/
def toDecAux : Nat → Nat → List Char
  | 0, _ => []
  | fuel + 1, n =>
    if n < 10 then [digitChar n]
    else toDecAux fuel (n / 10) ++ [digitChar (n % 10)]

/-- Decimal representation of a natural number, as a character list. -/
def toDec (n : Nat) : List Char := toDecAux (n + 1) n

/-- Read one decimal digit. -/
def decDigit? (c : Char) : Option Nat :=
  if 48 ≤ c.toNat ∧ c.toNat ≤ 57 then some (c.toNat - 48) else none

/-- Parse a run of decimal digits, accumulating into `acc`. -/
def parseNatAux : List Char → Nat → Option Nat
  | [], acc => some acc
  | c :: cs, acc =>
    match decDigit? c with
    | some d => parseNatAux cs (10 * acc + d)
    | none => none

/-- Parse a non-empty all-digit character list as a natural number. -/
def parseNat : List Char → Option Nat
  | [] => none
  | c :: cs => parseNatAux (c :: cs) 0

/-! ## Splitting character lists

`str::split` / `String::splitOn` analogue on character lists, used to model
the parsing of `"major.minor.patch"` versions and `"name:version"` ip specs.
-/

/-- Split a character list at every occurrence of `sep`.  Always returns a
non-empty list of (separator-free) chunks. -/
def splitOnChar (sep : Char) : List Char → List (List Char)
  | [] => [[]]
  | c :: cs =>
    if c = sep then [] :: splitOnChar sep cs
    else
      match splitOnChar sep cs with
      | [] => [[c]]
      | p :: ps => (c :: p) :: ps

/-! ## Versions

`src/core/version.rs` is not part of the source snapshot (only its callers
are), so the semver type is modelled from the specification. -/

/-- Modelled from the spec: `src/core/version.rs` is absent from the
snapshot; the spec describes the version type as SemVer with display
`"major.minor.patch"`. -/
structure Version where
  major : Nat
  minor : Nat
  patch : Nat
deriving DecidableEq, Repr

/-- Modelled from the spec: SemVer display form `"major.minor.patch"`. -/
def Version.toChars (v : Version) : List Char :=
  toDec v.major ++ ('.' :: (toDec v.minor ++ ('.' :: toDec v.patch)))

def Version.serialize (v : Version) : String := ⟨v.toChars⟩

/-- Modelled from the spec: SemVer parsing of `"major.minor.patch"`. -/
def Version.parseChars (l : List Char) : Option Version :=
  match splitOnChar '.' l with
  | [a, b, c] =>
    match parseNat a, parseNat b, parseNat c with
    | some x, some y, some z => some ⟨x, y, z⟩
    | _, _, _ => none
  | _ => none

def Version.parse (s : String) : Option Version := Version.parseChars s.data

/-- Lexicographic order on versions, as the derived `Ord` on the Rust
`Version` struct compares fields in declaration order. -/
def Version.leb (a b : Version) : Bool :=
  decide (a.major < b.major ∨ (a.major = b.major ∧
    (a.minor < b.minor ∨ (a.minor = b.minor ∧ a.patch ≤ b.patch))))

/-! ## The structured TOML document

The spec places TOML reading/writing out of scope ("treated as a
structured-document facility"), so the text layer is modelled by an explicit
document tree: `toml::to_string_pretty` maps the serde data model into this
tree and renders it, `toml::from_str` parses text back into the tree and runs
the typed deserializer on it.  We embed the serde (de)serializers of
`LockFile`/`LockEntry` (`src/core/lockfile.rs`) as functions on this tree. -/

inductive Toml where
  | str (s : String)
  | int (n : Nat)
  | arr (vs : List Toml)
  | table (kvs : List (String × Toml))

/-- Key lookup in a TOML table, first match wins. -/
def tlookup : List (String × Toml) → String → Option Toml
  | [], _ => none
  | (k, v) :: rest, key => if k = key then some v else tlookup rest key

/-- Option-valued map over a list (the effect of deserializing each element
of a TOML array, failing if any element fails). -/
def omap (f : α → Option β) : List α → Option (List β)
  | [] => some []
  | x :: xs =>
    match f x, omap f xs with
    | some y, some ys => some (y :: ys)
    | _, _ => none

/-! ## Character classes

`src/core/pkgid.rs` (the `PkgPart`/`Id` name type), `src/util/sha256.rs` and
`src/core/uuid.rs` are absent from the source snapshot; their string formats
are modelled from the spec. -/

/-- Modelled from the spec: package-name characters (names such as `lab1`,
`ks_tech`, `ks-tech`): alphanumeric, dash or underscore. -/
def isIdChar (c : Char) : Bool := c.isAlphanum || c = '-' || c = '_'

/-- Modelled from the spec: a valid IP name is a non-empty run of name
characters. -/
def isIdString (s : String) : Bool := !s.data.isEmpty && s.data.all isIdChar

/-- A lowercase hexadecimal digit (by code point, `0-9` or `a-f`). -/
def isHexChar (c : Char) : Bool :=
  (48 ≤ c.toNat && c.toNat ≤ 57) || (97 ≤ c.toNat && c.toNat ≤ 102)

/-- Modelled from the spec: a checksum renders as 64 lowercase hex
characters. -/
def isSha256Hex (s : String) : Bool :=
  s.data.length = 64 && s.data.all isHexChar

/-- Modelled from the spec: UUID text form `8-4-4-4-12` lowercase hex. -/
def isUuidStr (s : String) : Bool :=
  match splitOnChar '-' s.data with
  | [a, b, c, d, e] =>
    a.length = 8 && b.length = 4 && c.length = 4 && d.length = 4 &&
      e.length = 12 && (a ++ b ++ c ++ d ++ e).all isHexChar
  | _ => false

/-! ## IpSpec

`src/core/ip.rs` is absent from the snapshot; `IpSpec` is modelled from the
spec: a pair `(name, exact-version)`, rendered in lockfiles as the string
`"<name>:<version>"`. -/

structure IpSpec where
  name : String
  version : Version
deriving DecidableEq, Repr

/-- Modelled from the spec: an ip spec renders as `"<name>:<version>"`. -/
def IpSpec.serialize (sp : IpSpec) : String :=
  ⟨sp.name.data ++ (':' :: sp.version.toChars)⟩

/-- Modelled from the spec: parsing `"<name>:<version>"`. -/
def IpSpec.parse (s : String) : Option IpSpec :=
  match splitOnChar ':' s.data with
  | [n, v] =>
    if isIdString ⟨n⟩ then
      (Version.parseChars v).map fun ver => ⟨⟨n⟩, ver⟩
    else none
  | _ => none

/-! ## The lockfile data model (`src/core/lockfile.rs`, `mod v1`) -/

def LOCK_VERSION : Nat := 1

structure LockEntry where
  name : String
  version : Version
  uuid : String
  checksum : Option String
  source : Option String
  dependencies : List IpSpec
deriving DecidableEq, Repr

structure LockFile where
  version : Nat
  ip : List LockEntry
deriving DecidableEq, Repr

/-- Rust `LockFile::new`: the empty lockfile at the current schema version. -/
def LockFile.new : LockFile := ⟨LOCK_VERSION, []⟩

/-- Rust `LockFile::is_empty`. -/
def LockFile.isEmpty (lf : LockFile) : Bool := lf.ip.length = 0

/-- The serde serializer of a `LockEntry`: fields in declaration order;
`checksum` and the flattened `source` (its `url` field) are omitted when
absent. -/
def LockEntry.serialize (e : LockEntry) : List (String × Toml) :=
  [("name", .str e.name), ("version", .str e.version.serialize),
    ("uuid", .str e.uuid)] ++
  (match e.checksum with
   | some c => [("checksum", .str c)]
   | none => []) ++
  (match e.source with
   | some u => [("url", .str u)]
   | none => []) ++
  [("dependencies", .arr (e.dependencies.map fun d => .str d.serialize))]

/-- The serde deserializer of a `LockEntry`: required `name`, `version`,
`uuid` and `dependencies`, optional `checksum` and flattened `url`; each
field parsed by its typed deserializer. -/
def LockEntry.parse (t : Toml) : Option LockEntry :=
  match t with
  | .table kvs =>
    match tlookup kvs "name", tlookup kvs "version", tlookup kvs "uuid",
        tlookup kvs "dependencies" with
    | some (.str n), some (.str vs), some (.str us), some (.arr ds) =>
      if isIdString n && isUuidStr us then
        match Version.parse vs,
            omap (fun t' =>
              match t' with
              | .str s => IpSpec.parse s
              | _ => none) ds with
        | some ver, some deps =>
          match
            (match tlookup kvs "checksum" with
             | some (.str c) => if isSha256Hex c then some (some c) else none
             | none => some none
             | some _ => none),
            (match tlookup kvs "url" with
             | some (.str u) => some (some u)
             | none => some none
             | some _ => none) with
          | some cs, some so => some ⟨n, ver, us, cs, so, deps⟩
          | _, _ => none
        | _, _ => none
      else none
    | _, _, _, _ => none
  | _ => none

/-- Rust `impl Display for LockFile` (via `toml::to_string_pretty`): the document
tree emitted for a lockfile. -/
def LockFile.serialize (lf : LockFile) : Toml :=
  .table [("version", .int lf.version),
    ("ip", .arr (lf.ip.map fun e => .table e.serialize))]

/-- Rust `impl FromStr for LockFile` (via `toml::from_str`): the typed
deserializer run on a document tree. -/
def LockFile.parse (t : Toml) : Option LockFile :=
  match t with
  | .table kvs =>
    match tlookup kvs "version", tlookup kvs "ip" with
    | some (.int v), some (.arr es) =>
      (omap LockEntry.parse es).map fun entries => ⟨v, entries⟩
    | _, _ => none
  | _ => none

/-- Structural invariants every lockfile value built by the engine enjoys:
names are valid package names, uuids and checksums have their canonical
text form. -/
def LockEntry.wf (e : LockEntry) : Bool :=
  isIdString e.name && isUuidStr e.uuid &&
  (match e.checksum with
   | some c => isSha256Hex c
   | none => true) &&
  e.dependencies.all fun d => isIdString d.name

def LockFile.wf (lf : LockFile) : Bool := lf.ip.all LockEntry.wf

/-- A concrete engine-shaped lockfile (the shape of the repository's own
`DATA1` test vector). -/
def exampleLockFile : LockFile :=
  ⟨1,
    [⟨"lab1", ⟨0, 5, 0⟩, "00000000-0000-0000-0000-000000000000", none,
        some "https://go1.here",
        [⟨"lab4", ⟨0, 5, 19⟩⟩, ⟨"lab2", ⟨1, 0, 0⟩⟩]⟩,
      ⟨"lab2", ⟨1, 0, 0⟩, "00000000-0000-0000-0000-000000000000",
        some (String.mk (List.replicate 64 '0')), some "https://go2.here", []⟩,
      ⟨"lab4", ⟨0, 5, 19⟩, "00000000-0000-0000-0000-000000000000",
        some (String.mk (List.replicate 64 '0')), none,
        [⟨"lab3", ⟨2, 3, 1⟩⟩]⟩]⟩

/-! ## `impl FromFile for LockFile` (`src/core/lockfile.rs`, lines 47-83) -/

/-- What the filesystem holds at the lockfile path: nothing, a directory
(or other non-regular entry), or a regular file carrying a TOML document. -/
inductive FsEntry where
  | file (doc : Toml)
  | directory

inductive LockError where
  | notAFile            -- "The lockfile must be a file"
  | badHeader           -- `toml::from_str::<LockNumber>` failed, propagated by `?`
  | unsupportedVersion  -- "Unsupported lockfile version"
deriving DecidableEq, Repr

/-- The `LockNumber` deserializer: just the `version` field. -/
def parseLockNumber (t : Toml) : Option Nat :=
  match t with
  | .table kvs =>
    match tlookup kvs "version" with
    | some (.int n) => some n
    | _ => none
  | _ => none

/-- Rust `LockFile::from_file`: dispatch on existence, file-ness and the schema
version number; a body that fails to parse at version 1 degrades to an empty
lockfile with a warning (the `Bool` component records that the warning was
printed). -/
def LockFile.fromFile (entry : Option FsEntry) :
    Except LockError LockFile × Bool :=
  match entry with
  | none => (.ok LockFile.new, false)
  | some .directory => (.error .notAFile, false)
  | some (.file doc) =>
    match parseLockNumber doc with
    | none => (.error .badHeader, false)
    | some 1 =>
      match LockFile.parse doc with
      | some lf => (.ok lf, false)
      | none => (.ok LockFile.new, true)
    | some _ => (.error .unsupportedVersion, false)

/-- A document with a supported version header and a malformed body
(the `ip` array is missing). -/
def badBodyDoc : Toml := .table [("version", .int 1)]

/-- A document with an unsupported version header. -/
def badVersionDoc : Toml := .table [("version", .int 2), ("ip", .arr [])]

/-! ## `LockFile::from_build_list` and `From<(&Ip, bool)> for LockEntry` -/

/-- Modelled from the spec for the parts of `src/core/ip.rs` absent from the
snapshot: an `Ip` is its manifest data (name, version, uuid, source,
dependency list) plus the checksum the engine would record for it
(`read_checksum_proof` falling back to `compute_checksum`). -/
structure Ip where
  name : String
  version : Version
  uuid : String
  sum : String
  source : Option String
  deps : List (String × Version)
deriving DecidableEq, Repr

/-- Modelled from the spec: `Manifest::get_deps_list` returns the direct
dependency pairs of the manifest (the root flag selects the same manifest
table here). -/
def Ip.getDepsList (ip : Ip) (_isRoot : Bool) : List (String × Version) :=
  ip.deps

/-- The `(name, version)` comparator used by the lockfile engine
(`sort_by`: name first, version on ties). -/
def pairLE (x y : String × Version) : Bool :=
  decide (x.1 < y.1) || (decide (x.1 = y.1) && Version.leb x.2 y.2)

def specLE (x y : IpSpec) : Bool := pairLE (x.name, x.version) (y.name, y.version)

def ipLE (x y : Ip) : Bool := pairLE (x.name, x.version) (y.name, y.version)

def entryLE (x y : LockEntry) : Bool := pairLE (x.name, x.version) (y.name, y.version)

/-- Rust `impl From<(&Ip, bool)> for LockEntry`: the root entry omits the
checksum; the dependency vector is sorted by `(name, version)` unless it is
empty. -/
def LockEntry.fromIp (ip : Ip) (isRoot : Bool) : LockEntry :=
  { name := ip.name
    version := ip.version
    uuid := ip.uuid
    checksum := if isRoot then none else some ip.sum
    source := ip.source
    dependencies :=
      match (ip.getDepsList isRoot).length with
      | 0 => []
      | _ + 1 =>
        ((ip.getDepsList isRoot).map fun e => IpSpec.mk e.1 e.2).mergeSort
          specLE }

/-- Rust `LockFile::from_build_list`: sort the build list by `(name, version)`
(`sort_by` is a stable sort, modelled by `mergeSort`), then emit one entry
per ip, the root recognised by equality with `root`. -/
def LockFile.fromBuildList (buildList : List Ip) (root : Ip) : LockFile :=
  ⟨LOCK_VERSION,
    (buildList.mergeSort ipLE).map fun ip => LockEntry.fromIp ip (ip = root)⟩

/-! ## The cache engine (`src/commands/install.rs`)

The SHA-256 primitive is out of scope for the spec ("treated as a digest
primitive"), so every definition below takes the digest as a function
argument `digest` mapping gathered directory contents to the 64-hex string
`Checksum::to_string` would print. -/

/-- The files gathered for checksumming (`gather_current_files` under `.`):
sorted relative paths with their byte contents, both modelled as strings. -/
abbrev DirContents := List (String × String)

/-- Byte width a character occupies in UTF-8 (by code point). -/
def charBytes (c : Char) : Nat :=
  if c.toNat < 128 then 1
  else if c.toNat < 2048 then 2
  else if c.toNat < 65536 then 3
  else 4

/-- Model of Rust `str::get(0..n)`: the prefix occupying exactly `n` UTF-8
bytes, `none` when the string is shorter or `n` falls inside a character. -/
def utf8Get : Nat → List Char → Option (List Char)
  | 0, _ => some []
  | _ + 1, [] => none
  | n + 1, c :: cs =>
    if charBytes c ≤ n + 1 then (utf8Get (n + 1 - charBytes c) cs).map (c :: ·)
    else none

/-- The cache slot name computed by `Install::install`:
`format!("{}-{}-{}", name, version, checksum.to_string().get(0..10).unwrap())`,
where `checksum` is the digest of the store tree gathered after checkout.
`none` models the `.unwrap()` panic when the byte range is invalid. -/
def cacheSlotName (digest : DirContents → String) (name : String)
    (version : Version) (contents : DirContents) : Option String :=
  (utf8Get 10 (digest contents).data).map fun pre =>
    name ++ "-" ++ version.serialize ++ "-" ++ ⟨pre⟩

/-! ### The occupied-slot branch of `Install::install` (lines 191-208) -/

/-- A cache slot directory as the checksum verification sees it:
whether `Orbit.toml` parses (`IpManifest::from_path`), the slot contents the
checksum is recomputed over, and the `.orbit-checksum` proof if present and
readable (`get_checksum_proof(0)`). -/
structure Slot where
  hasManifest : Bool
  contents : DirContents
  proof : Option String
deriving Repr

inductive InstallError where
  | alreadyInstalled   -- "ip ... is already installed"
  | manifestError      -- `IpManifest::from_path` failed on the slot
deriving DecidableEq, Repr

/-- The log line printed before a reinstall. -/
def reinstallMsg : String :=
  "info: reinstalling ip due to bad checksum"

/-- The slot-occupancy logic of `Install::install`: given the freshly
computed store contents `newContents` and their digest `newSum`, decide what
happens to an existing (or missing) slot.  Returns the outcome, the final
slot state, and the log lines printed. -/
def installIntoSlot (digest : DirContents → String) (force : Bool)
    (newContents : DirContents) (newSum : String) (slot : Option Slot) :
    Except InstallError Slot × Option Slot × List String :=
  let fresh : Slot := ⟨true, newContents, some newSum⟩
  match slot with
  | none => (.ok fresh, some fresh, [])
  | some s =>
    if force then (.ok fresh, some fresh, [])
    else if s.hasManifest = false then (.error .manifestError, some s, [])
    else
      match s.proof with
      | some sha =>
        if sha = digest s.contents then
          (.error .alreadyInstalled, some s, [])
        else (.ok fresh, some fresh, [reinstallMsg])
      | none => (.ok fresh, some fresh, [reinstallMsg])

/-! ### `impl Command for Install` -- `exec` (lines 46-53) -/

/-- The version-constraint type.  Modelled from the spec
(`src/core/version.rs` is absent): `Latest`, a partial constraint, an exact
version, or the `Dev` sentinel. -/
inductive AnyVersion where
  | latest
  | partVer (major : Nat) (minor patch : Option Nat)
  | exactVer (v : Version)
  | dev
deriving DecidableEq, Repr

/-- Rust `Install::exec`: the command first matches on the requested constraint
and rejects `Dev` before anything else runs; the effectful remainder of
`exec` (tempdir creation, store access, repository resolution,
`Install::run`) is abstracted as the continuation `rest` acting on the
ambient system state `σ`. -/
def Install.exec {σ : Type} (rest : σ → Except String Unit × σ)
    (version : AnyVersion) (st : σ) : Except String Unit × σ :=
  match version with
  | .dev => (.error "a dev version cannot be installed to the cache", st)
  | _ => rest st

/-! ## The planner (`src/commands/plan.rs`) -/

/-- Modelled from the spec for `src/util/graph.rs` (absent from the
snapshot): a directed graph as its edge multiset over integer node
indices. -/
structure SGraph where
  edges : List (Nat × Nat)
deriving DecidableEq, Repr

/-- Modelled from the spec: the sources of the edges into `v`. -/
def SGraph.predecessors (g : SGraph) (v : Nat) : List Nat :=
  (g.edges.filter fun e => e.2 = v).map fun e => e.1

/-- Modelled from the spec: the number of edges into `v`. -/
def SGraph.inDegree (g : SGraph) (v : Nat) : Nat :=
  (g.edges.filter fun e => e.2 = v).length

inductive PlanError where
  | noTop          -- panic "no entities are tested in the testbench"
  | ambiguousTop   -- panic "multiple tops are detected from testbench"
  | noBenchGiven   -- the `todo!()` arm, never reached from `Plan::run`
deriving DecidableEq, Repr

/-- Rust `Plan::detect_top`: choose the top as the unique predecessor of the
bench; the panics are modelled as errors. -/
def detectTop (g : SGraph) (bench : Option Nat) : Except PlanError Nat :=
  match bench with
  | some b =>
    match g.inDegree b with
    | 0 => .error .noTop
    | 1 => .ok ((g.predecessors b).headD 0)
    | _ => .error .ambiguousTop
  | none => .error .noBenchGiven

/-! ### Pass 2 of `Plan::run`: wiring architectures (lines 123-136) -/

/-- The per-entity node stored in the planner's unit index: graph node
index, the entity's name (standing for the parsed entity record) and the
contributing files. -/
structure HashNode where
  index : Nat
  entity : String
  files : List String
deriving DecidableEq, Repr

/-- Rust `HashNode::add_file`: append the file unless already present. -/
def HashNode.addFile (n : HashNode) (f : String) : HashNode :=
  if n.files.contains f then n else { n with files := n.files ++ [f] }

/-- The unit index: identifier-keyed map, modelled as an association list. -/
abbrev UnitMap := List (String × HashNode)

def lookupNode : UnitMap → String → Option HashNode
  | [], _ => none
  | (k, v) :: rest, key => if k = key then some v else lookupNode rest key

def updateNode : UnitMap → String → (HashNode → HashNode) → UnitMap
  | [], _, _ => []
  | (k, v) :: rest, key, f =>
    if k = key then (k, f v) :: rest else (k, v) :: updateNode rest key f

/-- An architecture collected during pass 1: its owning entity, its source
file, and the identifiers it instantiates (`arch.edges()`). -/
structure Arch where
  entity : String
  file : String
  edges : List String
deriving DecidableEq, Repr

/-- The architecture-wiring loop of `Plan::run`: look up the owning entity
(`.unwrap()`, modelled as `none` on panic), add the architecture's file to
the owner, and add one graph edge per instantiated identifier that is
present in the index (absent identifiers are skipped). -/
def wireArchs (m : UnitMap) (es : List (Nat × Nat)) :
    List Arch → Option (UnitMap × List (Nat × Nat))
  | [] => some (m, es)
  | a :: rest =>
    match lookupNode m a.entity with
    | none => none
    | some node =>
      let m' := updateNode m a.entity fun n => n.addFile a.file
      let es' := es ++ a.edges.filterMap fun dep =>
        (lookupNode m' dep).map fun dn => (dn.index, node.index)
      wireArchs m' es' rest

/-! ### Blueprint emission (`Plan::run`, lines 207-246)

The blueprint is accumulated as one string: first the command-line fileset
records, then the plugin fileset records, then the HDL records.  Appending
into one accumulator across the three loops is concatenation of the three
parts. -/

/-- A fileset: its key and the compiled glob pattern, the latter modelled
extensionally as the predicate `Pattern::matches_with` computes. -/
structure Fileset where
  name : String
  accepts : String → Bool

/-- Modelled from the spec for `src/core/fileset.rs` (absent from the
snapshot): `Fileset::collect_files` glob-filters the gathered file list. -/
def Fileset.collectFiles (fs : Fileset) (files : List String) : List String :=
  files.filter fs.accepts

/-- The last path component of a file path (the `file_name` part). -/
def lastComp (l : List Char) : List Char :=
  ((splitOnChar '/' l).reverse.headD [])

/-- Drop the last dot-extension, if any. -/
def dropLastExt (b : List Char) : List Char :=
  if '.' ∈ b then (((b.reverse.dropWhile fun c => c ≠ '.').drop 1).reverse)
  else b

/-- Modelled from the spec: Rust `PathBuf::file_stem` (with
`unwrap_or(empty)`) -- the file name without its final extension. -/
def fileStem (f : String) : String := ⟨dropLastExt (lastComp f.data)⟩

/-- One record line of a fileset, as emitted by the command-line fileset
loop (`format!("{}\t{}\t{}\n", fset.get_name(), stem, f)`); modelled from
the spec, `Fileset::to_blueprint_string` emits the same record shape for
plugin filesets. -/
def recordLine (fs : Fileset) (f : String) : String :=
  fs.name ++ "\t" ++ fileStem f ++ "\t" ++ f ++ "\n"

/-- Modelled from the spec: the `VHDL-RTL` versus `VHDL-SIM` filename
classifier (testbench naming convention on the file stem). -/
def isRtl (f : String) : Bool :=
  !(("_tb".data.isSuffixOf (fileStem f).data) ||
    ("tb_".data.isPrefixOf (fileStem f).data))

/-- One HDL record line (`VHDL-RTL\twork\t<file>\n` or the `SIM`
variant). -/
def hdlLine (f : String) : String :=
  (if isRtl f then "VHDL-RTL" else "VHDL-SIM") ++ "\twork\t" ++ f ++ "\n"

/-- The command-line fileset loop: for every fileset, for every collected
file, append one record. -/
def cliFilesetData (fsets : List Fileset) (files : List String) : String :=
  fsets.foldl
    (fun acc fs =>
      (fs.collectFiles files).foldl (fun a f => a ++ recordLine fs f) acc)
    ""

/-- The plugin fileset loop: for every gathered file, for every plugin
fileset whose pattern matches, append one record. -/
def plugFilesetData (fsets : List Fileset) (files : List String) : String :=
  files.foldl
    (fun acc f =>
      fsets.foldl
        (fun a fs => if fs.accepts f then a ++ recordLine fs f else a) acc)
    ""

/-- The HDL loop over the minimal topological file order. -/
def hdlData (fileOrder : List String) : String :=
  fileOrder.foldl (fun acc f => acc ++ hdlLine f) ""

/-- The blueprint contents accumulated by `Plan::run`. -/
def blueprintData (cliFsets plugFsets : Option (List Fileset))
    (files fileOrder : List String) : String :=
  (match cliFsets with
   | some fsets => cliFilesetData fsets files
   | none => "") ++
  (match plugFsets with
   | some fsets => plugFilesetData fsets files
   | none => "") ++
  hdlData fileOrder

/-- The `(fileset, file)` pairs the command-line loop emits, in order. -/
def cliRecords (fsets : List Fileset) (files : List String) :
    List (Fileset × String) :=
  fsets.flatMap fun fs => (fs.collectFiles files).map fun f => (fs, f)

/-- The `(fileset, file)` pairs the plugin loop emits, in order. -/
def plugRecords (fsets : List Fileset) (files : List String) :
    List (Fileset × String) :=
  files.flatMap fun f => (fsets.filter fun fs => fs.accepts f).map fun fs => (fs, f)

/-- The body (sans trailing newline) of a fileset record line. -/
def recordBody (fs : Fileset) (f : String) : List Char :=
  fs.name.data ++ ('\t' :: ((fileStem f).data ++ ('\t' :: f.data)))

/-- The body (sans trailing newline) of an HDL record line. -/
def hdlBody (f : String) : List Char :=
  (if isRtl f then "VHDL-RTL" else "VHDL-SIM").data ++
    ('\t' :: ("work".data ++ ('\t' :: f.data)))

/-- The lines of the emitted text: newline-separated chunks, without the
empty chunk after the final newline. -/
def linesOf (s : String) : List (List Char) :=
  (splitOnChar '\n' s.data).dropLast

theorem parseNatAux_append (l₁ l₂ : List Char) (acc : Nat) :
    parseNatAux (l₁ ++ l₂) acc =
      match parseNatAux l₁ acc with
      | some a => parseNatAux l₂ a
      | none => none := by
  induction l₁ generalizing acc with
  | nil => simp [parseNatAux]
  | cons c cs ih =>
    simp only [List.cons_append, parseNatAux]
    cases decDigit? c with
    | none => rfl
    | some d => exact ih _

theorem decDigit?_digitChar {d : Nat} (h : d < 10) :
    decDigit? (digitChar d) = some d := by
  interval_cases d <;> rfl

theorem parseNatAux_digit {d : Nat} (h : d < 10) (acc : Nat) :
    parseNatAux [digitChar d] acc = some (10 * acc + d) := by
  simp [parseNatAux, decDigit?_digitChar h]

theorem toDecAux_small {fuel n : Nat} (h : n < 10) :
    toDecAux (fuel + 1) n = [digitChar n] := by
  rw [toDecAux, if_pos h]

theorem toDecAux_step {fuel n : Nat} (h : ¬n < 10) :
    toDecAux (fuel + 1) n = toDecAux fuel (n / 10) ++ [digitChar (n % 10)] := by
  rw [toDecAux, if_neg h]

theorem parseNatAux_toDecAux (fuel : Nat) :
    ∀ n acc, n ≤ fuel →
      parseNatAux (toDecAux (fuel + 1) n) acc =
        some (acc * 10 ^ (toDecAux (fuel + 1) n).length + n) := by
  induction fuel with
  | zero =>
    intro n acc hn
    interval_cases n
    rw [toDecAux_small (by omega), parseNatAux_digit (by omega)]
    simp
    omega
  | succ fuel ih =>
    intro n acc hn
    by_cases h : n < 10
    · rw [toDecAux_small h, parseNatAux_digit h]
      simp
      omega
    · have hdiv : n / 10 ≤ fuel := by omega
      rw [toDecAux_step h, parseNatAux_append, ih (n / 10) acc hdiv]
      have hm : n % 10 < 10 := Nat.mod_lt _ (by omega)
      dsimp only
      rw [parseNatAux_digit hm]
      simp only [List.length_append, List.length_singleton, Option.some.injEq,
        pow_succ]
      have hdm := Nat.div_add_mod n 10
      ring_nf
      omega

theorem toDec_ne_nil (n : Nat) : toDec n ≠ [] := by
  unfold toDec toDecAux
  by_cases h : n < 10 <;> simp [h]

/-- Parsing the decimal representation recovers the number. -/
theorem parseNat_toDec (n : Nat) : parseNat (toDec n) = some n := by
  have h := parseNatAux_toDecAux n n 0 (le_refl n)
  have hne := toDec_ne_nil n
  unfold toDec at *
  cases heq : toDecAux (n + 1) n with
  | nil => exact absurd heq hne
  | cons c cs =>
    rw [heq] at h
    simpa [parseNat] using h

/-- A decimal digit character is not a separator such as `'.'`, `':'`,
`'\t'` or `'\n'`. -/
theorem digitChar_mem_range {d : Nat} (h : d < 10) :
    48 ≤ (digitChar d).toNat ∧ (digitChar d).toNat ≤ 57 := by
  interval_cases d <;> decide

theorem toDecAux_mem_range (fuel : Nat) :
    ∀ n c, c ∈ toDecAux fuel n → 48 ≤ c.toNat ∧ c.toNat ≤ 57 := by
  induction fuel with
  | zero => intro n c hc; simp [toDecAux] at hc
  | succ fuel ih =>
    intro n c hc
    by_cases h : n < 10
    · simp [toDecAux, h] at hc
      subst hc
      exact digitChar_mem_range h
    · simp [toDecAux, h] at hc
      rcases hc with hc | hc
      · exact ih _ _ hc
      · subst hc
        exact digitChar_mem_range (Nat.mod_lt _ (by omega))

theorem toDec_mem_range {n : Nat} {c : Char} (hc : c ∈ toDec n) :
    48 ≤ c.toNat ∧ c.toNat ≤ 57 :=
  toDecAux_mem_range _ _ _ hc

theorem splitOnChar_cons_eq (sep : Char) (cs : List Char) :
    splitOnChar sep (sep :: cs) = [] :: splitOnChar sep cs := by
  rw [splitOnChar, if_pos rfl]

theorem splitOnChar_cons_ne {sep c : Char} (cs : List Char) (hc : c ≠ sep) :
    splitOnChar sep (c :: cs) =
      match splitOnChar sep cs with
      | [] => [[c]]
      | p :: ps => (c :: p) :: ps := by
  rw [splitOnChar, if_neg hc]

theorem splitOnChar_ne_nil (sep : Char) (l : List Char) :
    splitOnChar sep l ≠ [] := by
  induction l with
  | nil => simp [splitOnChar]
  | cons c cs ih =>
    by_cases h : c = sep
    · subst h; rw [splitOnChar_cons_eq]; simp
    · rw [splitOnChar_cons_ne _ h]
      cases splitOnChar sep cs <;> simp

/-- Splitting a separator-free chunk yields just that chunk. -/
theorem splitOnChar_no_sep {sep : Char} {l : List Char}
    (h : sep ∉ l) : splitOnChar sep l = [l] := by
  induction l with
  | nil => rfl
  | cons c cs ih =>
    simp only [List.mem_cons, not_or] at h
    have hc : c ≠ sep := fun hcs => h.1 hcs.symm
    rw [splitOnChar_cons_ne _ hc, ih h.2]

/-- Splitting at the first separator peels off the first chunk. -/
theorem splitOnChar_append_sep {sep : Char} {a : List Char}
    (rest : List Char) (h : sep ∉ a) :
    splitOnChar sep (a ++ sep :: rest) = a :: splitOnChar sep rest := by
  induction a with
  | nil => rw [List.nil_append, splitOnChar_cons_eq]
  | cons c cs ih =>
    simp only [List.mem_cons, not_or] at h
    have hc : c ≠ sep := fun hcs => h.1 hcs.symm
    rw [List.cons_append, splitOnChar_cons_ne _ hc, ih h.2]

theorem dot_not_mem_toDec (n : Nat) : '.' ∉ toDec n := by
  intro h
  have := toDec_mem_range h
  simp at this

theorem splitOnChar_toChars (v : Version) :
    splitOnChar '.' v.toChars = [toDec v.major, toDec v.minor, toDec v.patch] := by
  unfold Version.toChars
  rw [splitOnChar_append_sep _ (dot_not_mem_toDec v.major),
    splitOnChar_append_sep _ (dot_not_mem_toDec v.minor),
    splitOnChar_no_sep (dot_not_mem_toDec v.patch)]

theorem Version.parseChars_toChars (v : Version) :
    Version.parseChars v.toChars = some v := by
  rw [Version.parseChars, splitOnChar_toChars]
  simp [parseNat_toDec]

/-- Version strings round-trip through print/parse. -/
theorem version_parse_serialize (v : Version) :
    Version.parse (Version.serialize v) = some v :=
  Version.parseChars_toChars v

theorem Version.leb_trans {a b c : Version} (h₁ : Version.leb a b)
    (h₂ : Version.leb b c) : Version.leb a c := by
  simp only [Version.leb, decide_eq_true_eq] at *
  omega

theorem Version.leb_total (a b : Version) :
    Version.leb a b ∨ Version.leb b a := by
  simp only [Version.leb, decide_eq_true_eq]
  omega

theorem omap_map_some {f : α → Option β} {g : β → α} (l : List β)
    (h : ∀ b ∈ l, f (g b) = some b) : omap f (l.map g) = some l := by
  induction l with
  | nil => rfl
  | cons b bs ih =>
    simp only [List.map_cons, omap, h b (by simp),
      ih fun x hx => h x (by simp [hx])]

theorem colon_not_mem_of_id {s : String} (h : isIdString s) :
    ':' ∉ s.data := by
  intro hc
  simp only [isIdString, Bool.and_eq_true, List.all_eq_true] at h
  have := h.2 ':' hc
  simp [isIdChar] at this

theorem colon_not_mem_toChars (v : Version) : ':' ∉ v.toChars := by
  intro hc
  unfold Version.toChars at hc
  simp only [List.mem_append, List.mem_cons] at hc
  rcases hc with h | h | h
  · exact absurd (toDec_mem_range h) (by decide)
  · exact absurd h (by decide)
  · rcases h with h | h | h
    · exact absurd (toDec_mem_range h) (by decide)
    · exact absurd h (by decide)
    · exact absurd (toDec_mem_range h) (by decide)

/-- Ip specs round-trip through their string form. -/
theorem ipspec_parse_serialize (sp : IpSpec) (h : isIdString sp.name) :
    IpSpec.parse (IpSpec.serialize sp) = some sp := by
  unfold IpSpec.parse IpSpec.serialize
  rw [show (⟨sp.name.data ++ (':' :: sp.version.toChars)⟩ : String).data =
      sp.name.data ++ (':' :: sp.version.toChars) from rfl,
    splitOnChar_append_sep _ (colon_not_mem_of_id h),
    splitOnChar_no_sep (colon_not_mem_toChars sp.version)]
  simp [h, Version.parseChars_toChars]

/-- A serialized lock entry deserializes to itself. -/
theorem lockentry_parse_serialize (e : LockEntry) (h : e.wf = true) :
    LockEntry.parse (.table e.serialize) = some e := by
  obtain ⟨n, v, u, cs, so, deps⟩ := e
  simp only [LockEntry.wf, Bool.and_eq_true, List.all_eq_true] at h
  obtain ⟨⟨⟨hn, hu⟩, hcs⟩, hdeps⟩ := h
  have hdeps' : omap (fun t' =>
      match t' with
      | Toml.str s => IpSpec.parse s
      | _ => none) (deps.map fun d => Toml.str d.serialize) = some deps := by
    apply omap_map_some
    intro d hd
    exact ipspec_parse_serialize d (hdeps d hd)
  cases cs with
  | none =>
    cases so with
    | none =>
      simp [LockEntry.parse, LockEntry.serialize, tlookup, hn, hu,
        version_parse_serialize, hdeps']
    | some url =>
      simp [LockEntry.parse, LockEntry.serialize, tlookup, hn, hu,
        version_parse_serialize, hdeps']
  | some c =>
    have hc : isSha256Hex c = true := hcs
    cases so with
    | none =>
      simp [LockEntry.parse, LockEntry.serialize, tlookup, hn, hu, hc,
        version_parse_serialize, hdeps']
    | some url =>
      simp [LockEntry.parse, LockEntry.serialize, tlookup, hn, hu, hc,
        version_parse_serialize, hdeps']

/-- C1. Round-trip: for every lockfile value produced by the engine (its
entries carry well-formed names, uuids and checksums), serializing with the
`Display` (TOML) writer and parsing the result back with
`LockFile::from_str` yields the original lockfile. -/
theorem lockfile_display_fromstr_roundtrip (lf : LockFile)
    (h : lf.wf = true) : LockFile.parse (LockFile.serialize lf) = some lf := by
  obtain ⟨v, entries⟩ := lf
  simp only [LockFile.wf, List.all_eq_true] at h
  have : omap LockEntry.parse (entries.map fun e => Toml.table e.serialize) =
      some entries := by
    apply omap_map_some
    intro e he
    exact lockentry_parse_serialize e (h e he)
  simp [LockFile.serialize, LockFile.parse, tlookup, this]

/-- Witness for C1 at a concrete lockfile. -/
theorem lockfile_display_fromstr_roundtrip_witness :
    exampleLockFile.wf = true ∧
      LockFile.parse (LockFile.serialize exampleLockFile) =
        some exampleLockFile :=
  ⟨by decide, lockfile_display_fromstr_roundtrip exampleLockFile (by decide)⟩

/-- C6. A lockfile whose `version` header is the known schema version but
whose body fails to parse is read as the empty lockfile with a warning (not
an error); a `version` header that is not a supported schema version is an
unsupported-version error. -/
theorem fromFile_version_dispatch (doc : Toml) :
    (parseLockNumber doc = some 1 → LockFile.parse doc = none →
      LockFile.fromFile (some (.file doc)) = (.ok LockFile.new, true)) ∧
    (∀ n, parseLockNumber doc = some n → n ≠ 1 →
      LockFile.fromFile (some (.file doc)) =
        (.error .unsupportedVersion, false)) := by
  constructor
  · intro h1 h2
    simp [LockFile.fromFile, h1, h2]
  · intro n h1 hn
    rcases n with _ | n
    · simp [LockFile.fromFile, h1]
    · rcases n with _ | n
      · exact absurd rfl hn
      · simp [LockFile.fromFile, h1]

/-- Witness for C6 on concrete documents. -/
theorem fromFile_version_dispatch_witness :
    (parseLockNumber badBodyDoc = some 1 ∧
      LockFile.parse badBodyDoc = none ∧
      LockFile.fromFile (some (.file badBodyDoc)) = (.ok LockFile.new, true)) ∧
    (parseLockNumber badVersionDoc = some 2 ∧
      LockFile.fromFile (some (.file badVersionDoc)) =
        (.error .unsupportedVersion, false)) :=
  ⟨⟨by decide, by decide,
      (fromFile_version_dispatch badBodyDoc).1 (by decide) (by decide)⟩,
    ⟨by decide,
      (fromFile_version_dispatch badVersionDoc).2 2 (by decide) (by decide)⟩⟩

/-- C9. Reading a lockfile from a path with no file returns `Ok` with the
empty lockfile (`version = LOCK_VERSION`, no entries); a path that exists
but is not a regular file is an error. -/
theorem fromFile_missing_and_nonfile :
    LockFile.fromFile none = (.ok ⟨LOCK_VERSION, []⟩, false) ∧
      LockFile.fromFile (some .directory) = (.error .notAFile, false) :=
  ⟨rfl, rfl⟩

theorem pairLE_trans {x y z : String × Version} (h₁ : pairLE x y)
    (h₂ : pairLE y z) : pairLE x z := by
  simp only [pairLE, Bool.or_eq_true, Bool.and_eq_true, decide_eq_true_eq] at *
  rcases h₁ with h₁ | ⟨h₁, v₁⟩ <;> rcases h₂ with h₂ | ⟨h₂, v₂⟩
  · exact Or.inl (lt_trans h₁ h₂)
  · exact Or.inl (h₂ ▸ h₁)
  · exact Or.inl (h₁ ▸ h₂)
  · exact Or.inr ⟨h₁.trans h₂, Version.leb_trans v₁ v₂⟩

theorem pairLE_total (x y : String × Version) : (pairLE x y || pairLE y x) = true := by
  simp only [pairLE, Bool.or_eq_true, Bool.and_eq_true, decide_eq_true_eq]
  rcases lt_trichotomy x.1 y.1 with h | h | h
  · exact Or.inl (Or.inl h)
  · rcases Version.leb_total x.2 y.2 with hv | hv
    · exact Or.inl (Or.inr ⟨h, hv⟩)
    · exact Or.inr (Or.inr ⟨h.symm, hv⟩)
  · exact Or.inr (Or.inl h)

/-- C2. The lockfile produced by `from_build_list` lists its entries sorted
by `(name, version)`, and the dependency vector inside every entry is sorted
by `(name, version)`. -/
theorem from_build_list_sorted (buildList : List Ip) (root : Ip) :
    List.Sorted (fun a b => entryLE a b = true)
        (LockFile.fromBuildList buildList root).ip ∧
      ∀ e ∈ (LockFile.fromBuildList buildList root).ip,
        List.Sorted (fun a b => specLE a b = true) e.dependencies := by
  constructor
  · have hsorted := @List.sorted_mergeSort Ip ipLE
      (fun a b c => pairLE_trans) (fun a b => pairLE_total _ _) buildList
    exact List.Pairwise.map _ (fun a b h => h) hsorted
  · intro e he
    simp only [LockFile.fromBuildList, List.mem_map] at he
    obtain ⟨ip, _, rfl⟩ := he
    show List.Sorted _ (LockEntry.fromIp ip _).dependencies
    unfold LockEntry.fromIp
    cases h : (ip.getDepsList (ip = root)).length with
    | zero => simp
    | succ k =>
      simp only [h]
      exact @List.sorted_mergeSort IpSpec specLE
        (fun a b c => pairLE_trans) (fun a b => pairLE_total _ _) _

theorem utf8Get_ascii (l : List Char) (hascii : ∀ c ∈ l, charBytes c = 1) :
    ∀ n, n ≤ l.length → utf8Get n l = some (l.take n) := by
  induction l with
  | nil =>
    intro n hn
    have hz : n = 0 := by simpa using hn
    subst hz
    rfl
  | cons c cs ih =>
    intro n hn
    cases n with
    | zero => rfl
    | succ m =>
      have hc : charBytes c = 1 := hascii c (by simp)
      simp only [utf8Get, hc, Nat.add_sub_cancel, if_pos (by omega : 1 ≤ m + 1)]
      rw [ih (fun x hx => hascii x (by simp [hx])) m (by simpa using hn)]
      simp

theorem isHexChar_charBytes {c : Char} (h : isHexChar c = true) :
    charBytes c = 1 := by
  simp only [isHexChar, Bool.or_eq_true, Bool.and_eq_true, decide_eq_true_eq] at h
  unfold charBytes
  split_ifs <;> omega

/-- C3. The slot name is `<name>-<version>-<first 10 hex chars of the
digest>`, and it is a pure function of `(name, version, content)`: two
installs of the same tag of the same ip produce the same slot name. -/
theorem cacheSlotName_spec (digest : DirContents → String) (name : String)
    (version : Version) (contents : DirContents)
    (hhex : isSha256Hex (digest contents) = true) :
    cacheSlotName digest name version contents =
        some (name ++ "-" ++ version.serialize ++
          "-" ++ ⟨(digest contents).data.take 10⟩) ∧
      ∀ contents', contents' = contents →
        cacheSlotName digest name version contents' =
          cacheSlotName digest name version contents := by
  constructor
  · simp only [isSha256Hex, Bool.and_eq_true, decide_eq_true_eq,
      List.all_eq_true] at hhex
    have h10 : (10 : Nat) ≤ (digest contents).data.length := by omega
    rw [cacheSlotName,
      utf8Get_ascii _ (fun c hc => isHexChar_charBytes (hhex.2 c hc)) 10 h10]
    rfl
  · intro contents' h
    rw [h]

/-- Witness for C3: a concrete digest function and directory contents. -/
theorem cacheSlotName_spec_witness :
    isSha256Hex ((fun _ : DirContents => String.mk (List.replicate 64 'a'))
        []) = true ∧
      cacheSlotName (fun _ => String.mk (List.replicate 64 'a')) "gates"
          ⟨1, 0, 0⟩ [] =
        some ("gates" ++ "-" ++ (⟨1, 0, 0⟩ : Version).serialize ++ "-" ++
          ⟨(String.mk (List.replicate 64 'a')).data.take 10⟩) :=
  ⟨by decide,
    (cacheSlotName_spec (fun _ => String.mk (List.replicate 64 'a')) "gates"
      ⟨1, 0, 0⟩ [] (by decide)).1⟩

/-- C4. With `force = false` and an occupied slot, the engine recomputes the
checksum of the slot's current contents: when it equals the stored
`.orbit-checksum` proof the result is already-installed and the slot is
untouched; when it differs the engine logs the reinstall message, deletes
the slot and rebuilds it with the fresh contents and checksum. -/
theorem installIntoSlot_occupied (digest : DirContents → String)
    (newContents : DirContents) (newSum : String) (s : Slot)
    (hman : s.hasManifest = true) :
    (∀ sha, s.proof = some sha → sha = digest s.contents →
      installIntoSlot digest false newContents newSum (some s) =
        (.error .alreadyInstalled, some s, [])) ∧
    (∀ sha, s.proof = some sha → sha ≠ digest s.contents →
      installIntoSlot digest false newContents newSum (some s) =
        (.ok ⟨true, newContents, some newSum⟩,
          some ⟨true, newContents, some newSum⟩, [reinstallMsg])) := by
  constructor
  · intro sha hp heq
    simp [installIntoSlot, hman, hp, heq]
  · intro sha hp hne
    simp [installIntoSlot, hman, hp, hne]

/-- Witness for C4: a slot with an intact proof, and one with a corrupted
proof, under the digest that hashes contents to 64 `'a'`s. -/
theorem installIntoSlot_occupied_witness :
    ((⟨true, [], some (String.mk (List.replicate 64 'a'))⟩ : Slot).hasManifest
        = true ∧
      installIntoSlot (fun _ => String.mk (List.replicate 64 'a')) false []
          "s" (some ⟨true, [], some (String.mk (List.replicate 64 'a'))⟩) =
        (.error .alreadyInstalled,
          some ⟨true, [], some (String.mk (List.replicate 64 'a'))⟩, [])) ∧
      installIntoSlot (fun _ => String.mk (List.replicate 64 'a')) false []
          "s" (some ⟨true, [], some "corrupt"⟩) =
        (.ok ⟨true, [], some "s"⟩, some ⟨true, [], some "s"⟩,
          [reinstallMsg]) :=
  ⟨⟨rfl,
      (installIntoSlot_occupied (fun _ => String.mk (List.replicate 64 'a'))
          [] "s" ⟨true, [], some (String.mk (List.replicate 64 'a'))⟩ rfl).1
        _ rfl (by decide)⟩,
    (installIntoSlot_occupied (fun _ => String.mk (List.replicate 64 'a'))
        [] "s" ⟨true, [], some "corrupt"⟩ rfl).2 _ rfl (by decide)⟩

/-- C8. Requesting an install with the `Dev` constraint fails with the
dev-version error before any repository or cache state is touched: whatever
the remainder of the command would do to the state, the state comes back
unchanged. -/
theorem install_exec_rejects_dev {σ : Type}
    (rest : σ → Except String Unit × σ) (st : σ) :
    Install.exec rest AnyVersion.dev st =
      (.error "a dev version cannot be installed to the cache", st) := rfl

/-- C5. With no `--top` hint the planner takes the unique predecessor of the
bench: in-degree 0 is a no-top error, in-degree 1 returns the single
predecessor, in-degree above 1 is an ambiguous-top error. -/
theorem detectTop_cases (g : SGraph) (b : Nat) :
    (g.inDegree b = 0 → detectTop g (some b) = .error .noTop) ∧
    (∀ p, g.predecessors b = [p] → detectTop g (some b) = .ok p) ∧
    (1 < g.inDegree b → detectTop g (some b) = .error .ambiguousTop) := by
  refine ⟨fun h => by simp [detectTop, h], fun p hp => ?_, fun h => ?_⟩
  · have hdeg : g.inDegree b = 1 := by
      have : (g.predecessors b).length = 1 := by rw [hp]; rfl
      simpa [SGraph.predecessors, SGraph.inDegree] using this
    simp [detectTop, hdeg, hp]
  · rcases hdeg : g.inDegree b with _ | n
    · omega
    · rcases n with _ | n
      · omega
      · simp [detectTop, hdeg]

/-- Witness for C5 on concrete graphs: a unique predecessor, an untested
bench, and an ambiguous bench. -/
theorem detectTop_cases_witness :
    ((SGraph.mk [(0, 1)]).predecessors 1 = [0] ∧
      detectTop (SGraph.mk [(0, 1)]) (some 1) = .ok 0) ∧
    ((SGraph.mk []).inDegree 1 = 0 ∧
      detectTop (SGraph.mk []) (some 1) = .error .noTop) ∧
    (1 < (SGraph.mk [(0, 2), (1, 2)]).inDegree 2 ∧
      detectTop (SGraph.mk [(0, 2), (1, 2)]) (some 2) = .error .ambiguousTop) :=
  ⟨⟨by decide, (detectTop_cases (SGraph.mk [(0, 1)]) 1).2.1 0 (by decide)⟩,
    ⟨by decide, (detectTop_cases (SGraph.mk []) 1).1 (by decide)⟩,
    ⟨by decide, (detectTop_cases (SGraph.mk [(0, 2), (1, 2)]) 2).2.2
      (by decide)⟩⟩

theorem lookupNode_updateNode_isSome (m : UnitMap) (k key : String)
    (f : HashNode → HashNode) :
    (lookupNode (updateNode m k f) key).isSome = (lookupNode m key).isSome := by
  induction m with
  | nil => rfl
  | cons kv rest ih =>
    obtain ⟨k', v⟩ := kv
    by_cases h : k' = k
    · subst h
      by_cases h' : k' = key <;> simp [updateNode, lookupNode, h']
    · by_cases h' : k' = key
      · subst h'
        simp [updateNode, lookupNode, h]
      · simp [updateNode, lookupNode, h, h', ih]

/-- C10. The wiring loop completes exactly when every collected
architecture names an entity present in the unit index; an architecture
whose owner is absent makes `Plan::run` panic (`none`) instead of being
skipped. -/
theorem wireArchs_isSome_iff (m : UnitMap) (es : List (Nat × Nat))
    (archs : List Arch) :
    (wireArchs m es archs).isSome ↔
      ∀ a ∈ archs, (lookupNode m a.entity).isSome := by
  induction archs generalizing m es with
  | nil => simp [wireArchs]
  | cons a rest ih =>
    cases h : lookupNode m a.entity with
    | none =>
      simp only [wireArchs, h]
      constructor
      · intro hfalse; simp at hfalse
      · intro hall
        have := hall a (by simp)
        rw [h] at this
        simp at this
    | some node =>
      simp only [wireArchs, h]
      rw [ih]
      constructor
      · intro hall
        intro x hx
        rcases List.mem_cons.mp hx with rfl | hx'
        · rw [h]; rfl
        · have := hall x hx'
          rwa [lookupNode_updateNode_isSome] at this
      · intro hall x hx
        rw [lookupNode_updateNode_isSome]
        exact hall x (by simp [hx])

theorem data_append (a b : String) : (a ++ b).data = a.data ++ b.data := rfl

theorem foldl_append_data (g : α → String) (l : List α) (acc : String) :
    (l.foldl (fun a x => a ++ g x) acc).data =
      acc.data ++ (l.map fun x => (g x).data).flatten := by
  induction l generalizing acc with
  | nil => simp
  | cons x xs ih =>
    rw [List.foldl_cons, ih, data_append]
    simp [List.append_assoc]

theorem foldl_ite_append_data (p : α → Bool) (g : α → String) (l : List α)
    (acc : String) :
    (l.foldl (fun a x => if p x then a ++ g x else a) acc).data =
      acc.data ++ ((l.filter p).map fun x => (g x).data).flatten := by
  induction l generalizing acc with
  | nil => simp
  | cons x xs ih =>
    rw [List.foldl_cons]
    by_cases hx : p x
    · rw [if_pos hx, ih, data_append]
      simp [hx, List.append_assoc]
    · rw [if_neg hx, ih]
      simp [hx]

theorem cliFilesetData_data (fsets : List Fileset) (files : List String) :
    (cliFilesetData fsets files).data =
      ((cliRecords fsets files).map fun r => (recordLine r.1 r.2).data).flatten := by
  suffices h : ∀ acc : String,
      ((fsets.foldl
        (fun acc fs =>
          (fs.collectFiles files).foldl (fun a f => a ++ recordLine fs f) acc)
        acc).data =
        acc.data ++
          ((cliRecords fsets files).map fun r => (recordLine r.1 r.2).data).flatten) by
    simpa using h ""
  induction fsets with
  | nil => intro acc; simp [cliRecords]
  | cons fs rest ih =>
    intro acc
    rw [List.foldl_cons, ih, foldl_append_data]
    simp [cliRecords, List.append_assoc, List.map_map, Function.comp]
    rfl

theorem plugFilesetData_data (fsets : List Fileset) (files : List String) :
    (plugFilesetData fsets files).data =
      ((plugRecords fsets files).map fun r => (recordLine r.1 r.2).data).flatten := by
  suffices h : ∀ acc : String,
      ((files.foldl
        (fun acc f =>
          fsets.foldl
            (fun a fs => if fs.accepts f then a ++ recordLine fs f else a) acc)
        acc).data =
        acc.data ++
          ((plugRecords fsets files).map fun r => (recordLine r.1 r.2).data).flatten) by
    simpa using h ""
  induction files with
  | nil => intro acc; simp [plugRecords]
  | cons f rest ih =>
    intro acc
    rw [List.foldl_cons, ih, foldl_ite_append_data]
    simp [plugRecords, List.append_assoc, List.map_map, Function.comp]
    rfl

theorem hdlData_data (fileOrder : List String) :
    (hdlData fileOrder).data = (fileOrder.map fun f => (hdlLine f).data).flatten :=
  by simpa using foldl_append_data hdlLine fileOrder ""

theorem recordLine_data (fs : Fileset) (f : String) :
    (recordLine fs f).data = recordBody fs f ++ ['\n'] := by
  simp [recordLine, recordBody, data_append, List.append_assoc]

theorem hdlLine_data (f : String) :
    (hdlLine f).data = hdlBody f ++ ['\n'] := by
  by_cases h : isRtl f <;>
    simp [hdlLine, hdlBody, h, data_append, List.append_assoc]

theorem splitOnChar_flatten (sep : Char) (L : List (List Char))
    (h : ∀ b ∈ L, sep ∉ b) :
    splitOnChar sep ((L.map fun b => b ++ [sep]).flatten) =
      L ++ [[]] := by
  induction L with
  | nil => rfl
  | cons b bs ih =>
    have hb : sep ∉ b := h b (by simp)
    rw [List.map_cons, List.flatten_cons, List.append_assoc,
      List.singleton_append, splitOnChar_append_sep _ hb,
      ih fun x hx => h x (by simp [hx])]
    rfl

/-- Every character of a chunk of `splitOnChar` occurs in the input. -/
theorem mem_of_mem_splitOnChar {sep : Char} {l : List Char} {p : List Char}
    {c : Char} (hp : p ∈ splitOnChar sep l) (hc : c ∈ p) : c ∈ l := by
  induction l generalizing p with
  | nil =>
    simp only [splitOnChar, List.mem_singleton] at hp
    subst hp
    cases hc
  | cons x xs ih =>
    by_cases hx : x = sep
    · subst hx
      rw [splitOnChar_cons_eq] at hp
      rcases List.mem_cons.mp hp with rfl | hp'
      · cases hc
      · exact List.mem_cons_of_mem _ (ih hp' hc)
    · rw [splitOnChar_cons_ne _ hx] at hp
      cases hsplit : splitOnChar sep xs with
      | nil => exact absurd hsplit (splitOnChar_ne_nil sep xs)
      | cons p0 ps =>
        rw [hsplit] at hp
        rcases List.mem_cons.mp hp with rfl | hp'
        · rcases List.mem_cons.mp hc with rfl | hc'
          · exact List.mem_cons_self _ _
          · exact List.mem_cons_of_mem _ (ih (hsplit ▸ List.mem_cons_self p0 ps) hc')
        · exact List.mem_cons_of_mem _ (ih (hsplit ▸ List.mem_cons_of_mem p0 hp') hc)

theorem mem_of_mem_fileStem {f : String} {c : Char}
    (hc : c ∈ (fileStem f).data) : c ∈ f.data := by
  have h1 : c ∈ lastComp f.data := by
    unfold fileStem at hc
    unfold dropLastExt at hc
    by_cases hdot : '.' ∈ lastComp f.data
    · rw [if_pos hdot] at hc
      have := List.mem_reverse.mp hc
      have := List.mem_of_mem_drop this
      have := (List.dropWhile_sublist _).mem this
      exact List.mem_reverse.mp this
    · rwa [if_neg hdot] at hc
  unfold lastComp at h1
  cases hrev : (splitOnChar '/' f.data).reverse with
  | nil =>
    have : splitOnChar '/' f.data = [] := by
      have := congrArg List.reverse hrev
      simpa using this
    exact absurd this (splitOnChar_ne_nil _ _)
  | cons p ps =>
    rw [hrev] at h1
    simp only [List.headD_cons] at h1
    have hp : p ∈ splitOnChar '/' f.data := by
      have : p ∈ (splitOnChar '/' f.data).reverse := hrev ▸ List.mem_cons_self p ps
      exact List.mem_reverse.mp this
    exact mem_of_mem_splitOnChar hp h1

theorem nl_not_mem_recordBody {fs : Fileset} {f : String}
    (hname : '\n' ∉ fs.name.data) (hf : '\n' ∉ f.data) :
    '\n' ∉ recordBody fs f := by
  intro hmem
  unfold recordBody at hmem
  simp only [List.mem_append, List.mem_cons] at hmem
  rcases hmem with h | h | h
  · exact hname h
  · exact absurd h (by decide)
  · rcases h with h | h | h
    · exact hf (mem_of_mem_fileStem h)
    · exact absurd h (by decide)
    · exact hf h

theorem nl_not_mem_hdlBody {f : String} (hf : '\n' ∉ f.data) :
    '\n' ∉ hdlBody f := by
  intro hmem
  unfold hdlBody at hmem
  by_cases h : isRtl f <;>
  · simp only [h] at hmem
    simp only [List.mem_append, List.mem_cons] at hmem
    rcases hmem with hx | hx | hx
    · revert hx; decide
    · exact absurd hx (by decide)
    · rcases hx with hx | hx | hx
      · revert hx; decide
      · exact absurd hx (by decide)
      · exact hf hx

theorem countP_const (b : Bool) (l : List α) :
    l.countP (fun _ => b) = if b then l.length else 0 := by
  cases b <;> simp [List.countP_eq_length_filter]

theorem countP_filter_eq (p : String → Bool) (files : List String)
    (f : String) :
    (files.filter p).countP (fun x => decide (x = f)) =
      if p f then files.countP (fun x => decide (x = f)) else 0 := by
  induction files with
  | nil => simp
  | cons x xs ih =>
    by_cases hx : x = f
    · subst hx
      by_cases hp : p x <;> simp [List.filter_cons, List.countP_cons, hp, ih]
    · by_cases hp : p x <;>
        simp [List.filter_cons, List.countP_cons, hp, hx, ih]

theorem cliRecords_countP (fsets : List Fileset) (files : List String)
    (f : String) :
    (cliRecords fsets files).countP (fun r => decide (r.2 = f)) =
      (fsets.filter fun fs => fs.accepts f).length *
        files.countP (fun x => decide (x = f)) := by
  induction fsets with
  | nil => simp [cliRecords]
  | cons fs rest ih =>
    rw [cliRecords, List.flatMap_cons, List.countP_append, List.countP_map]
    show (Fileset.collectFiles fs files).countP (fun x => decide (x = f)) +
        (cliRecords rest files).countP (fun r => decide (r.2 = f)) = _
    rw [Fileset.collectFiles, countP_filter_eq, ih]
    by_cases hp : fs.accepts f
    · simp only [List.filter_cons, hp, if_pos, List.length_cons, Nat.succ_mul]
      omega
    · simp [List.filter_cons, hp]

theorem plugRecords_countP (fsets : List Fileset) (files : List String)
    (f : String) :
    (plugRecords fsets files).countP (fun r => decide (r.2 = f)) =
      files.countP (fun x => decide (x = f)) *
        (fsets.filter fun fs => fs.accepts f).length := by
  induction files with
  | nil => simp [plugRecords]
  | cons x xs ih =>
    rw [plugRecords, List.flatMap_cons, List.countP_append, List.countP_map]
    show (fsets.filter fun fs => fs.accepts x).countP (fun _ => decide (x = f)) +
        (plugRecords fsets xs).countP (fun r => decide (r.2 = f)) = _
    rw [countP_const, ih]
    by_cases hx : x = f
    · subst hx
      simp [List.countP_cons, Nat.add_mul]
      omega
    · simp [List.countP_cons, hx]

theorem mem_cliRecords {fsets : List Fileset} {files : List String}
    {r : Fileset × String} (hr : r ∈ cliRecords fsets files) :
    r.1 ∈ fsets ∧ r.2 ∈ files := by
  simp only [cliRecords, Fileset.collectFiles, List.mem_flatMap,
    List.mem_map] at hr
  obtain ⟨fs, hfs, f, hf, rfl⟩ := hr
  exact ⟨hfs, (List.mem_filter.mp hf).1⟩

theorem mem_plugRecords {fsets : List Fileset} {files : List String}
    {r : Fileset × String} (hr : r ∈ plugRecords fsets files) :
    r.1 ∈ fsets ∧ r.2 ∈ files := by
  simp only [plugRecords, List.mem_flatMap, List.mem_map] at hr
  obtain ⟨f, hf, fs, hfs, rfl⟩ := hr
  exact ⟨(List.mem_filter.mp hfs).1, hf⟩

/-- C7. Every record emitted for a command-line or plugin fileset appears in
the blueprint before every HDL source record (the blueprint's line list is
the fileset records followed by the HDL records), and a file matching
several fileset patterns produces one record per matching fileset key. -/
theorem blueprint_filesets_before_hdl (cliFsets plugFsets : List Fileset)
    (files fileOrder : List String)
    (hcli : ∀ fs ∈ cliFsets, '\n' ∉ fs.name.data)
    (hplug : ∀ fs ∈ plugFsets, '\n' ∉ fs.name.data)
    (hfiles : ∀ f ∈ files, '\n' ∉ f.data)
    (horder : ∀ f ∈ fileOrder, '\n' ∉ f.data) :
    linesOf (blueprintData (some cliFsets) (some plugFsets) files fileOrder) =
      ((cliRecords cliFsets files ++ plugRecords plugFsets files).map
        fun r => recordBody r.1 r.2) ++ fileOrder.map hdlBody ∧
    ∀ f ∈ files, files.countP (fun x => decide (x = f)) = 1 →
      (cliRecords cliFsets files ++ plugRecords plugFsets files).countP
          (fun r => decide (r.2 = f)) =
        (cliFsets.filter fun fs => fs.accepts f).length +
          (plugFsets.filter fun fs => fs.accepts f).length := by
  constructor
  · have hdata :
        (blueprintData (some cliFsets) (some plugFsets) files fileOrder).data =
          ((((cliRecords cliFsets files ++ plugRecords plugFsets files).map
              fun r => recordBody r.1 r.2) ++ fileOrder.map hdlBody).map
            fun b => b ++ ['\n']).flatten := by
      rw [show blueprintData (some cliFsets) (some plugFsets) files fileOrder =
        cliFilesetData cliFsets files ++ plugFilesetData plugFsets files ++
          hdlData fileOrder from rfl]
      rw [data_append, data_append, cliFilesetData_data, plugFilesetData_data,
        hdlData_data]
      simp only [recordLine_data, hdlLine_data, List.map_append,
        List.flatten_append, List.map_map]
      rfl
    unfold linesOf
    rw [hdata, splitOnChar_flatten, List.dropLast_concat]
    intro b hb
    simp only [List.mem_append, List.mem_map] at hb
    rcases hb with ⟨r, hr, rfl⟩ | ⟨f, hf, rfl⟩
    · rcases hr with h | h
      · obtain ⟨h1, h2⟩ := mem_cliRecords h
        exact nl_not_mem_recordBody (hcli _ h1) (hfiles _ h2)
      · obtain ⟨h1, h2⟩ := mem_plugRecords h
        exact nl_not_mem_recordBody (hplug _ h1) (hfiles _ h2)
    · exact nl_not_mem_hdlBody (horder _ hf)
  · intro f _ hcount
    rw [List.countP_append, cliRecords_countP, plugRecords_countP, hcount]
    ring

/-- Witness for C7 on a concrete plan: one command-line fileset, two plugin
filesets both matching the same file. -/
theorem blueprint_filesets_before_hdl_witness :
    (∀ fs ∈ [Fileset.mk "XDC" fun f => f = "pins.xdc"],
        '\n' ∉ fs.name.data) ∧
    (∀ fs ∈ [Fileset.mk "PY" fun f => f = "model.py",
        Fileset.mk "PYMODEL" fun f => f = "model.py"], '\n' ∉ fs.name.data) ∧
    (∀ f ∈ ["pins.xdc", "model.py", "top.vhd"], '\n' ∉ f.data) ∧
    (∀ f ∈ ["top.vhd"], '\n' ∉ f.data) ∧
    (linesOf (blueprintData
        (some [Fileset.mk "XDC" fun f => f = "pins.xdc"])
        (some [Fileset.mk "PY" fun f => f = "model.py",
          Fileset.mk "PYMODEL" fun f => f = "model.py"])
        ["pins.xdc", "model.py", "top.vhd"] ["top.vhd"]) =
      ((cliRecords [Fileset.mk "XDC" fun f => f = "pins.xdc"]
          ["pins.xdc", "model.py", "top.vhd"] ++
        plugRecords [Fileset.mk "PY" fun f => f = "model.py",
          Fileset.mk "PYMODEL" fun f => f = "model.py"]
          ["pins.xdc", "model.py", "top.vhd"]).map
        fun r => recordBody r.1 r.2) ++ ["top.vhd"].map hdlBody ∧
    ∀ f ∈ ["pins.xdc", "model.py", "top.vhd"],
      (["pins.xdc", "model.py", "top.vhd"].countP fun x => decide (x = f)) = 1 →
      ((cliRecords [Fileset.mk "XDC" fun f => f = "pins.xdc"]
          ["pins.xdc", "model.py", "top.vhd"] ++
        plugRecords [Fileset.mk "PY" fun f => f = "model.py",
          Fileset.mk "PYMODEL" fun f => f = "model.py"]
          ["pins.xdc", "model.py", "top.vhd"]).countP
          fun r => decide (r.2 = f)) =
        ([Fileset.mk "XDC" fun f => f = "pins.xdc"].filter
          fun fs => fs.accepts f).length +
        ([Fileset.mk "PY" fun f => f = "model.py",
          Fileset.mk "PYMODEL" fun f => f = "model.py"].filter
          fun fs => fs.accepts f).length) :=
  ⟨by decide, by decide, by decide, by decide,
    blueprint_filesets_before_hdl _ _ _ _ (by decide) (by decide) (by decide)
      (by decide)⟩

end Orbit
